import Mathlib

/-
Verification development for autocrew.py (yanniedog/autocrew, version 2.1.4).

The file shallow-embeds the data model and operations of the script:
  - configparser documents and the config-merge loop of upgrade_autocrew
    (lines 174-185 of autocrew.py),
  - the backup phase of upgrade_autocrew (lines 146-159),
  - the fetch / copy / merge / write sequence of upgrade_autocrew (161-192),
  - version parsing and comparison as used by check_latest_version and main,
  - positive_int (116-128), the argument parser of main (198-206),
  - logging initialization (44-77) and the dispatch logic of main (206-239).

Machine-level conventions: file contents are Lean Strings; the parsed
content of config.ini is a ConfigDocument (an ordered association list of
sections, each an ordered association list of keys), matching the ordered
dicts configparser uses.  configparser forbids duplicate sections and keys
inside one file, so parsed documents have nodup section names and nodup
keys; theorems that need this state it as a hypothesis.  The DEFAULT
section mechanism of configparser is not used by the script and is not
modelled.
-/

/-- One config section: ordered list of key/value pairs (configparser
keeps insertion order). -/
abbrev ConfigSection := List (String × String)

/-- A parsed config.ini document: ordered list of named sections. -/
abbrev ConfigDocument := List (String × ConfigSection)

/-- Lookup of a key inside a section (first match, like a dict with
nodup keys). -/
def lookupKey (sec : ConfigSection) (k : String) : Option String :=
  match sec with
  | [] => none
  | (k', v) :: rest => if k' = k then some v else lookupKey rest k

/-- configparser set on a section dict: replace the value of an existing
key in place, or append a new key at the end (dict insertion order). -/
def setKey (sec : ConfigSection) (k v : String) : ConfigSection :=
  match sec with
  | [] => [(k, v)]
  | (k', v') :: rest => if k' = k then (k, v) :: rest else (k', v') :: setKey rest k v

/-- Lookup of a section by name (first match). -/
def lookupSec (d : ConfigDocument) (s : String) : Option ConfigSection :=
  match d with
  | [] => none
  | (s', sec) :: rest => if s' = s then some sec else lookupSec rest s

/-- config.has_section. -/
def has_section (d : ConfigDocument) (s : String) : Bool :=
  (lookupSec d s).isSome

/-- config.add_section: a new empty section is appended at the end. -/
def add_section (d : ConfigDocument) (s : String) : ConfigDocument :=
  d ++ [(s, [])]

/-- config.set(section, key, value): update the named section in place.
configparser raises NoSectionError when the section is missing; the merge
loop of upgrade_autocrew always ensures the section first, so the missing
case (modelled as the identity) is never reached there. -/
def writeIn (d : ConfigDocument) (s k v : String) : ConfigDocument :=
  match d with
  | [] => []
  | (s', sec) :: rest =>
      if s' = s then (s', setKey sec k v) :: rest else (s', sec) :: writeIn rest s k v

/-- The section-ensuring step of the merge loop:
if not config.has_section(section): config.add_section(section). -/
def ens (d : ConfigDocument) (s : String) : ConfigDocument :=
  if has_section d s then d else add_section d s

/-- Lookup of section/key in a document. -/
def lookupIn (d : ConfigDocument) (s k : String) : Option String :=
  (lookupSec d s).bind (fun sec => lookupKey sec k)

/-- Whether the section/key pair is present in the document. -/
def hasKeyIn (d : ConfigDocument) (s k : String) : Bool :=
  (lookupIn d s k).isSome

/-- The body of the merge loop of upgrade_autocrew for one overrides
section: ensure the section, then config.set every key of the section. -/
def mergeSection (d : ConfigDocument) (s : String) (items : ConfigSection) : ConfigDocument :=
  items.foldl (fun acc kv => writeIn acc s kv.1 kv.2) (ens d s)

/-- The merge loop of upgrade_autocrew (lines 179-183): base is the
freshly fetched default config, overrides the backed-up user config;
every overrides section/key is written into base. -/
def merge (base overrides : ConfigDocument) : ConfigDocument :=
  overrides.foldl (fun acc c => mergeSection acc c.1 c.2) base

/-- Setting a key makes it present with the given value. -/
theorem lookupKey_setKey_self (sec : ConfigSection) (k v : String) :
    lookupKey (setKey sec k v) k = some v := by
  induction sec with
  | nil => simp [setKey, lookupKey]
  | cons h t ih =>
    obtain ⟨k', v'⟩ := h
    by_cases hk : k' = k
    · simp [setKey, hk, lookupKey]
    · simp [setKey, hk, lookupKey, ih]

/-- Setting a key leaves the other keys unchanged. -/
theorem lookupKey_setKey_ne (sec : ConfigSection) (k k' v : String) (h : k' ≠ k) :
    lookupKey (setKey sec k v) k' = lookupKey sec k' := by
  induction sec with
  | nil => simp [setKey, lookupKey, Ne.symm h]
  | cons hd t ih =>
    obtain ⟨k0, v0⟩ := hd
    by_cases hk : k0 = k
    · subst hk
      simp [setKey, lookupKey, Ne.symm h]
    · simp [setKey, hk, lookupKey, ih]

/-- Two sets of the same key collapse to the last one. -/
theorem setKey_setKey (sec : ConfigSection) (k v w : String) :
    setKey (setKey sec k v) k w = setKey sec k w := by
  induction sec with
  | nil => simp [setKey]
  | cons hd t ih =>
    obtain ⟨k0, v0⟩ := hd
    by_cases hk : k0 = k
    · simp [setKey, hk]
    · simp [setKey, hk, ih]

/-- Setting a key to the value it already has is the identity. -/
theorem setKey_self_of_lookup (sec : ConfigSection) (k v : String)
    (h : lookupKey sec k = some v) : setKey sec k v = sec := by
  induction sec with
  | nil => simp [lookupKey] at h
  | cons hd t ih =>
    obtain ⟨k0, v0⟩ := hd
    by_cases hk : k0 = k
    · subst hk
      simp [lookupKey] at h
      simp [setKey, h]
    · simp [lookupKey, hk] at h
      simp [setKey, hk, ih h]

/-- Sets of two different keys commute, provided the first key is already
present (then neither set appends relative to the other). -/
theorem setKey_comm (sec : ConfigSection) (k k' v w : String)
    (hp : (lookupKey sec k).isSome) (hne : k' ≠ k) :
    setKey (setKey sec k v) k' w = setKey (setKey sec k' w) k v := by
  induction sec with
  | nil => simp [lookupKey] at hp
  | cons hd t ih =>
    obtain ⟨k0, v0⟩ := hd
    by_cases hk : k0 = k
    · subst hk
      simp [setKey, Ne.symm hne, hne]
    · by_cases hk' : k0 = k'
      · subst hk'
        simp [setKey, hk]
      · simp [lookupKey, hk] at hp
        simp [setKey, hk, hk', ih hp]

/-- Presence of a key survives setting any key. -/
theorem lookupKey_setKey_isSome (sec : ConfigSection) (k k' v : String)
    (h : (lookupKey sec k').isSome) : (lookupKey (setKey sec k v) k').isSome := by
  by_cases hk : k' = k
  · subst hk
    simp [lookupKey_setKey_self]
  · rwa [lookupKey_setKey_ne sec k k' v hk]

/-- Writing into one section: the named section receives the set, seen
through lookupSec. -/
theorem lookupSec_writeIn_self (d : ConfigDocument) (s k v : String) :
    lookupSec (writeIn d s k v) s = (lookupSec d s).map (fun sec => setKey sec k v) := by
  induction d with
  | nil => simp [writeIn, lookupSec]
  | cons hd t ih =>
    obtain ⟨s0, sec0⟩ := hd
    by_cases hs : s0 = s
    · simp [writeIn, hs, lookupSec]
    · simp [writeIn, hs, lookupSec, ih]

/-- Writing into one section leaves the other sections unchanged. -/
theorem lookupSec_writeIn_ne (d : ConfigDocument) (s s' k v : String) (h : s' ≠ s) :
    lookupSec (writeIn d s k v) s' = lookupSec d s' := by
  induction d with
  | nil => simp [writeIn]
  | cons hd t ih =>
    obtain ⟨s0, sec0⟩ := hd
    by_cases hs : s0 = s
    · subst hs
      simp [writeIn, lookupSec, Ne.symm h]
    · simp [writeIn, hs, lookupSec, ih]

/-- Section presence is untouched by a write. -/
theorem has_section_writeIn (d : ConfigDocument) (s s' k v : String) :
    has_section (writeIn d s k v) s' = has_section d s' := by
  by_cases h : s' = s
  · subst h
    simp [has_section, lookupSec_writeIn_self]
  · simp [has_section, lookupSec_writeIn_ne d s s' k v h]

/-- A write into a missing section is the identity (the merge loop never
reaches this case). -/
theorem writeIn_id_of_not_has (d : ConfigDocument) (s k v : String)
    (h : has_section d s = false) : writeIn d s k v = d := by
  induction d with
  | nil => simp [writeIn]
  | cons hd t ih =>
    obtain ⟨s0, sec0⟩ := hd
    by_cases hs : s0 = s
    · simp [has_section, lookupSec, hs] at h
    · simp [has_section, lookupSec, hs] at h
      simp [writeIn, hs, ih (by simp [has_section, h])]

/-- Two writes of the same section/key collapse to the last one. -/
theorem writeIn_writeIn_same (d : ConfigDocument) (s k v w : String) :
    writeIn (writeIn d s k v) s k w = writeIn d s k w := by
  induction d with
  | nil => simp [writeIn]
  | cons hd t ih =>
    obtain ⟨s0, sec0⟩ := hd
    by_cases hs : s0 = s
    · simp [writeIn, hs, setKey_setKey]
    · simp [writeIn, hs, ih]

/-- Value of the written key after a write (section present). -/
theorem lookupIn_writeIn_self (d : ConfigDocument) (s k v : String)
    (h : has_section d s = true) : lookupIn (writeIn d s k v) s k = some v := by
  simp [has_section, Option.isSome_iff_exists] at h
  obtain ⟨sec, hsec⟩ := h
  simp [lookupIn, lookupSec_writeIn_self, hsec, lookupKey_setKey_self]

/-- A write does not change any other section/key value. -/
theorem lookupIn_writeIn_ne (d : ConfigDocument) (s s' k k' v : String)
    (h : s' ≠ s ∨ k' ≠ k) : lookupIn (writeIn d s k v) s' k' = lookupIn d s' k' := by
  by_cases hs : s' = s
  · subst hs
    have hk : k' ≠ k := h.resolve_left (by simp)
    cases hsec : lookupSec d s' with
    | none => simp [lookupIn, lookupSec_writeIn_self, hsec]
    | some sec => simp [lookupIn, lookupSec_writeIn_self, hsec, lookupKey_setKey_ne sec k k' v hk]
  · simp [lookupIn, lookupSec_writeIn_ne d s s' k v hs]

/-- Writing a key to the value it already has is the identity. -/
theorem writeIn_id_of_lookup (d : ConfigDocument) (s k v : String)
    (h : lookupIn d s k = some v) : writeIn d s k v = d := by
  induction d with
  | nil => simp [writeIn]
  | cons hd t ih =>
    obtain ⟨s0, sec0⟩ := hd
    by_cases hs : s0 = s
    · subst hs
      simp [lookupIn, lookupSec] at h
      simp [writeIn, setKey_self_of_lookup sec0 k v h]
    · simp [lookupIn, lookupSec, hs] at h
      simp [writeIn, hs]
      exact ih (by simpa [lookupIn] using h)

/-- Lookup over an appended document, left part misses. -/
theorem lookupSec_append_right (d d2 : ConfigDocument) (s : String)
    (h : lookupSec d s = none) : lookupSec (d ++ d2) s = lookupSec d2 s := by
  induction d with
  | nil => simp
  | cons hd t ih =>
    obtain ⟨s0, sec0⟩ := hd
    by_cases hs : s0 = s
    · simp [lookupSec, hs] at h
    · simp [lookupSec, hs] at h ⊢
      exact ih h

/-- Lookup over an appended document, left part hits. -/
theorem lookupSec_append_left (d d2 : ConfigDocument) (s : String) (sec : ConfigSection)
    (h : lookupSec d s = some sec) : lookupSec (d ++ d2) s = some sec := by
  induction d with
  | nil => simp [lookupSec] at h
  | cons hd t ih =>
    obtain ⟨s0, sec0⟩ := hd
    by_cases hs : s0 = s
    · simp [lookupSec, hs] at h ⊢
      exact h
    · simp [lookupSec, hs] at h ⊢
      exact ih h

/-- Ensuring a section makes it present. -/
theorem has_section_ens_self (d : ConfigDocument) (s : String) :
    has_section (ens d s) s = true := by
  unfold ens
  cases h : has_section d s
  · simp [has_section] at h ⊢
    simp [add_section, lookupSec_append_right d [(s, [])] s h, lookupSec]
  · simp [h]

/-- Ensuring a present section is the identity. -/
theorem ens_id_of_has (d : ConfigDocument) (s : String)
    (h : has_section d s = true) : ens d s = d := by
  simp [ens, h]

/-- Ensuring never removes a section. -/
theorem has_section_ens (d : ConfigDocument) (s s' : String)
    (h : has_section d s' = true) : has_section (ens d s) s' = true := by
  unfold ens
  cases hh : has_section d s
  · simp [has_section, Option.isSome_iff_exists] at h
    obtain ⟨sec, hsec⟩ := h
    simp [has_section, add_section, lookupSec_append_left d [(s, [])] s' sec hsec]
  · simpa using h

/-- Ensuring a section changes no section/key value (a freshly added
section is empty). -/
theorem lookupIn_ens (d : ConfigDocument) (t s k : String) :
    lookupIn (ens d t) s k = lookupIn d s k := by
  unfold ens
  cases hh : has_section d t
  · simp [add_section]
    cases hsec : lookupSec d s with
    | none =>
      rw [lookupIn, lookupSec_append_right d [(t, [])] s hsec]
      by_cases hts : t = s
      · simp [lookupSec, hts, lookupIn, hsec, lookupKey]
      · simp [lookupSec, hts, lookupIn, hsec]
    | some sec =>
      rw [lookupIn, lookupSec_append_left d [(t, [])] s sec hsec, lookupIn, hsec]
  · simp

/-- A present key implies a present section. -/
theorem has_section_of_hasKeyIn (d : ConfigDocument) (s k : String)
    (h : hasKeyIn d s k = true) : has_section d s = true := by
  simp [hasKeyIn, lookupIn, Option.isSome_iff_exists] at h
  obtain ⟨v, hv⟩ := h
  cases hsec : lookupSec d s with
  | none => rw [hsec] at hv; simp at hv
  | some sec => simp [has_section, hsec]

/-- Presence of a key survives any write. -/
theorem hasKeyIn_writeIn (d : ConfigDocument) (s s' k k' v : String)
    (h : hasKeyIn d s' k' = true) : hasKeyIn (writeIn d s k v) s' k' = true := by
  by_cases hsk : s' = s ∧ k' = k
  · obtain ⟨h1, h2⟩ := hsk
    subst h1; subst h2
    have := has_section_of_hasKeyIn d s' k' h
    simp [hasKeyIn, lookupIn_writeIn_self d s' k' v this]
  · rw [Classical.not_and_iff_or_not_not] at hsk
    simp [hasKeyIn] at h
    simp [hasKeyIn, lookupIn_writeIn_ne d s s' k k' v hsk, h]

/-- A freshly written key is present. -/
theorem hasKeyIn_writeIn_self (d : ConfigDocument) (s k v : String)
    (h : has_section d s = true) : hasKeyIn (writeIn d s k v) s k = true := by
  simp [hasKeyIn, lookupIn_writeIn_self d s k v h]

/-- One primitive step of the merge loop: ensure a section, or set one
section/key to a value. -/
inductive Instr
  | ens (s : String)
  | write (s k v : String)
deriving DecidableEq

/-- Execute one primitive merge step on a document. -/
def applyInstr (d : ConfigDocument) : Instr → ConfigDocument
  | .ens s => ens d s
  | .write s k v => writeIn d s k v

/-- Execute a list of primitive merge steps from left to right. -/
def exec (d : ConfigDocument) : List Instr → ConfigDocument
  | [] => d
  | i :: rest => exec (applyInstr d i) rest

theorem exec_append (d : ConfigDocument) (P Q : List Instr) :
    exec d (P ++ Q) = exec (exec d P) Q := by
  induction P generalizing d with
  | nil => simp [exec]
  | cons i rest ih => simp [exec, ih]

/-- Section presence survives any step. -/
theorem has_section_applyInstr (d : ConfigDocument) (i : Instr) (s : String)
    (h : has_section d s = true) : has_section (applyInstr d i) s = true := by
  cases i with
  | ens t => exact has_section_ens d t s h
  | write t k v => rw [applyInstr, has_section_writeIn]; exact h

/-- Key presence survives any step. -/
theorem hasKeyIn_applyInstr (d : ConfigDocument) (i : Instr) (s k : String)
    (h : hasKeyIn d s k = true) : hasKeyIn (applyInstr d i) s k = true := by
  cases i with
  | ens t => simp [applyInstr, hasKeyIn, lookupIn_ens, hasKeyIn] at h ⊢; exact h
  | write t k' v => exact hasKeyIn_writeIn d t s k' k v h

/-- Section presence survives execution. -/
theorem has_section_exec (d : ConfigDocument) (P : List Instr) (s : String)
    (h : has_section d s = true) : has_section (exec d P) s = true := by
  induction P generalizing d with
  | nil => exact h
  | cons i rest ih => exact ih (applyInstr d i) (has_section_applyInstr d i s h)

/-- Key presence survives execution. -/
theorem hasKeyIn_exec (d : ConfigDocument) (P : List Instr) (s k : String)
    (h : hasKeyIn d s k = true) : hasKeyIn (exec d P) s k = true := by
  induction P generalizing d with
  | nil => exact h
  | cons i rest ih => exact ih (applyInstr d i) (hasKeyIn_applyInstr d i s k h)

/-- Whether a step writes the given section/key. -/
def Touches : Instr → String → String → Prop
  | .write s' k' _, s, k => s' = s ∧ k' = k
  | .ens _, _, _ => False

/-- A step that does not write the pair leaves its value unchanged. -/
theorem lookupIn_applyInstr_untouched (d : ConfigDocument) (i : Instr) (s k : String)
    (h : ¬ Touches i s k) : lookupIn (applyInstr d i) s k = lookupIn d s k := by
  cases i with
  | ens t => exact lookupIn_ens d t s k
  | write t k' v =>
    rw [Touches] at h
    rw [Classical.not_and_iff_or_not_not] at h
    exact lookupIn_writeIn_ne d t s k' k v (h.imp (fun hh => Ne.symm hh) (fun hh => Ne.symm hh))

/-- Steps that do not write the pair leave its value unchanged. -/
theorem lookupIn_exec_untouched (d : ConfigDocument) (P : List Instr) (s k : String)
    (h : ∀ i ∈ P, ¬ Touches i s k) : lookupIn (exec d P) s k = lookupIn d s k := by
  induction P generalizing d with
  | nil => rfl
  | cons i rest ih =>
    rw [exec, ih (applyInstr d i) (fun j hj => h j (List.mem_cons_of_mem i hj)),
      lookupIn_applyInstr_untouched d i s k (h i (List.mem_cons_self i rest))]

/-- A write lands inside the left part when its section is there. -/
theorem writeIn_append_left (d d2 : ConfigDocument) (s k v : String)
    (h : has_section d s = true) : writeIn (d ++ d2) s k v = writeIn d s k v ++ d2 := by
  induction d with
  | nil => simp [has_section, lookupSec] at h
  | cons hd t ih =>
    obtain ⟨s0, sec0⟩ := hd
    by_cases hs : s0 = s
    · simp [writeIn, hs]
    · simp [has_section, lookupSec, hs] at h
      simp [writeIn, hs, ih (by simp [has_section, h])]

/-- Ensuring one section commutes with writing into an already present
section. -/
theorem ens_writeIn_comm (d : ConfigDocument) (t s k v : String)
    (h : has_section d s = true) : ens (writeIn d s k v) t = writeIn (ens d t) s k v := by
  unfold ens
  rw [has_section_writeIn]
  cases ht : has_section d t
  · simp [add_section, writeIn_append_left d [(t, [])] s k v h]
  · simp

/-- Writes into two different sections commute. -/
theorem writeIn_comm_ne_sec (d : ConfigDocument) (s t k k2 v v2 : String)
    (h : s ≠ t) : writeIn (writeIn d s k v) t k2 v2 = writeIn (writeIn d t k2 v2) s k v := by
  induction d with
  | nil => simp [writeIn]
  | cons hd rest ih =>
    obtain ⟨s0, sec0⟩ := hd
    by_cases hs : s0 = s
    · subst hs
      simp [writeIn, h]
    · by_cases hst : s0 = t
      · subst hst
        simp [writeIn, Ne.symm h]
      · simp [writeIn, hs, hst, ih]

/-- Writes of two different keys in the same section commute when the
first key is already present in that section. -/
theorem writeIn_comm_ne_key (d : ConfigDocument) (s k k2 v v2 : String)
    (hp : hasKeyIn d s k = true) (hne : k2 ≠ k) :
    writeIn (writeIn d s k v) s k2 v2 = writeIn (writeIn d s k2 v2) s k v := by
  induction d with
  | nil => simp [writeIn]
  | cons hd rest ih =>
    obtain ⟨s0, sec0⟩ := hd
    by_cases hs : s0 = s
    · subst hs
      simp [hasKeyIn, lookupIn, lookupSec] at hp
      simp [writeIn, setKey_comm sec0 k k2 v v2 hp hne]
    · simp [hasKeyIn, lookupIn, lookupSec, hs] at hp
      simp [writeIn, hs]
      exact ih (by simpa [hasKeyIn, lookupIn] using hp)

/-- Replaying steps after an extra write of an already present pair that
some later step rewrites anyway gives the same document. -/
theorem exec_writeIn_absorb (P : List Instr) (d : ConfigDocument) (s k v : String)
    (hp : hasKeyIn d s k = true) (ht : ∃ i ∈ P, Touches i s k) :
    exec (writeIn d s k v) P = exec d P := by
  induction P generalizing d v with
  | nil => simp at ht
  | cons j R ih =>
    cases j with
    | ens t =>
      have hsec : has_section d s = true := has_section_of_hasKeyIn d s k hp
      have step : applyInstr (writeIn d s k v) (Instr.ens t) = writeIn (ens d t) s k v := by
        simp [applyInstr, ens_writeIn_comm d t s k v hsec]
      rw [exec, step, exec]
      have hp' : hasKeyIn (ens d t) s k = true := hasKeyIn_applyInstr d (.ens t) s k hp
      obtain ⟨i, hiP, hiT⟩ := ht
      rcases List.mem_cons.mp hiP with heq | hmem
      · subst heq; simp [Touches] at hiT
      · exact ih (ens d t) v hp' ⟨i, hmem, hiT⟩
    | write t k2 v2 =>
      by_cases hsame : t = s ∧ k2 = k
      · obtain ⟨h1, h2⟩ := hsame
        subst h1; subst h2
        rw [exec, exec, applyInstr, applyInstr, writeIn_writeIn_same]
      · have step : writeIn (writeIn d s k v) t k2 v2 = writeIn (writeIn d t k2 v2) s k v := by
          by_cases hts : t = s
          · subst hts
            have hk : k2 ≠ k := by
              intro hh
              exact hsame ⟨rfl, hh⟩
            exact writeIn_comm_ne_key d t k k2 v v2 hp hk
          · exact (writeIn_comm_ne_sec d s t k k2 v v2 (fun hh => hts hh.symm))
        rw [exec, exec, applyInstr, applyInstr, step]
        have hp' : hasKeyIn (writeIn d t k2 v2) s k = true :=
          hasKeyIn_writeIn d t s k2 k v2 hp
        obtain ⟨i, hiP, hiT⟩ := ht
        rcases List.mem_cons.mp hiP with hexq | hmem
        · subst hexq
          simp [Touches] at hiT
          exact absurd hiT hsame
        · exact ih (writeIn d t k2 v2) v hp' ⟨i, hmem, hiT⟩

/-- Every write of the step list names a section that an earlier ens step
of the list, or the ambient set, has provided. -/
def EnsuredBy : List String → List Instr → Prop
  | _, [] => True
  | S, .ens s :: R => EnsuredBy (s :: S) R
  | S, .write s _ _ :: R => s ∈ S ∧ EnsuredBy S R

/-- Replaying a well-formed step list a second time changes nothing. -/
theorem exec_replay (P : List Instr) (S : List String) (d : ConfigDocument)
    (hS : ∀ s ∈ S, has_section d s = true) (hE : EnsuredBy S P) :
    exec (exec d P) P = exec d P := by
  induction P generalizing S d with
  | nil => rfl
  | cons i R ih =>
    cases i with
    | ens t =>
      rw [EnsuredBy] at hE
      have h1 : has_section (exec (ens d t) R) t = true :=
        has_section_exec (ens d t) R t (has_section_ens_self d t)
      simp only [exec, applyInstr]
      rw [ens_id_of_has _ t h1]
      refine ih (t :: S) (ens d t) ?_ hE
      intro s hs
      rcases List.mem_cons.mp hs with hseq | hmem
      · subst hseq; exact has_section_ens_self d s
      · exact has_section_ens d t s (hS s hmem)
    | write t k v =>
      rw [EnsuredBy] at hE
      obtain ⟨htS, hER⟩ := hE
      have hsec : has_section d t = true := hS t htS
      simp only [exec, applyInstr]
      have hkey : hasKeyIn (writeIn d t k v) t k = true :=
        hasKeyIn_writeIn_self d t k v hsec
      have hS' : ∀ s ∈ S, has_section (writeIn d t k v) s = true := by
        intro s hs
        rw [has_section_writeIn]
        exact hS s hs
      by_cases hex : ∃ i ∈ R, Touches i t k
      · rw [exec_writeIn_absorb R (exec (writeIn d t k v) R) t k v
            (hasKeyIn_exec (writeIn d t k v) R t k hkey) hex]
        exact ih S (writeIn d t k v) hS' hER
      · push_neg at hex
        have hval : lookupIn (exec (writeIn d t k v) R) t k = some v := by
          rw [lookupIn_exec_untouched (writeIn d t k v) R t k hex,
            lookupIn_writeIn_self d t k v hsec]
        rw [writeIn_id_of_lookup _ t k v hval]
        exact ih S (writeIn d t k v) hS' hER

/-- The write steps of one overrides section. -/
def writesOf (s : String) (items : ConfigSection) : List Instr :=
  items.map (fun kv => Instr.write s kv.1 kv.2)

/-- The merge loop of upgrade_autocrew as a flat list of primitive steps:
for each overrides section, ensure it and then set each of its keys. -/
def flattenDoc : ConfigDocument → List Instr
  | [] => []
  | (s, items) :: rest => (Instr.ens s :: writesOf s items) ++ flattenDoc rest

theorem foldl_writeIn_eq_exec (items : ConfigSection) (d : ConfigDocument) (s : String) :
    items.foldl (fun acc kv => writeIn acc s kv.1 kv.2) d = exec d (writesOf s items) := by
  induction items generalizing d with
  | nil => rfl
  | cons kv rest ih =>
    have h1 : writesOf s (kv :: rest) = Instr.write s kv.1 kv.2 :: writesOf s rest := rfl
    rw [h1, List.foldl_cons, exec, applyInstr]
    exact ih (writeIn d s kv.1 kv.2)

theorem mergeSection_eq_exec (d : ConfigDocument) (s : String) (items : ConfigSection) :
    mergeSection d s items = exec d (Instr.ens s :: writesOf s items) := by
  rw [mergeSection, exec, applyInstr, foldl_writeIn_eq_exec]

theorem merge_eq_exec (b o : ConfigDocument) : merge b o = exec b (flattenDoc o) := by
  induction o generalizing b with
  | nil => rfl
  | cons c rest ih =>
    obtain ⟨s, items⟩ := c
    rw [flattenDoc, exec_append, ← mergeSection_eq_exec]
    rw [merge, List.foldl_cons, ← merge]
    exact ih (mergeSection b s items)

theorem ensuredBy_writesOf (S : List String) (s : String) (items : ConfigSection)
    (Q : List Instr) (hs : s ∈ S) (hQ : EnsuredBy S Q) :
    EnsuredBy S (writesOf s items ++ Q) := by
  induction items with
  | nil => simpa [writesOf]
  | cons kv rest ih => exact ⟨hs, ih⟩

theorem ensuredBy_flattenDoc (o : ConfigDocument) (S : List String) :
    EnsuredBy S (flattenDoc o) := by
  induction o generalizing S with
  | nil => trivial
  | cons c rest ih =>
    obtain ⟨s, items⟩ := c
    rw [flattenDoc, List.cons_append, EnsuredBy]
    exact ensuredBy_writesOf (s :: S) s items (flattenDoc rest)
      (List.mem_cons_self s S) (ih (s :: S))

/-- Claim C6: for all configuration documents base and overrides, the
config merge of upgrade_autocrew is idempotent: merging the overrides
into an already-merged result changes nothing,
merge (merge base overrides) overrides = merge base overrides. -/
theorem c6_merge_idempotent (base overrides : ConfigDocument) :
    merge (merge base overrides) overrides = merge base overrides := by
  rw [merge_eq_exec (merge base overrides) overrides, merge_eq_exec base overrides]
  exact exec_replay (flattenDoc overrides) [] base (by simp)
    (ensuredBy_flattenDoc overrides [])

/-- Merging preserves every key of the running document. -/
theorem hasKeyIn_merge_pres (d o : ConfigDocument) (s k : String)
    (h : hasKeyIn d s k = true) : hasKeyIn (merge d o) s k = true := by
  rw [merge_eq_exec]
  exact hasKeyIn_exec d (flattenDoc o) s k h

/-- Merging preserves every section of the running document. -/
theorem has_section_merge_pres (d o : ConfigDocument) (s : String)
    (h : has_section d s = true) : has_section (merge d o) s = true := by
  rw [merge_eq_exec]
  exact has_section_exec d (flattenDoc o) s h

/-- A merged-in section is present afterwards. -/
theorem has_section_mergeSection_self (d : ConfigDocument) (s : String)
    (items : ConfigSection) : has_section (mergeSection d s items) s = true := by
  rw [mergeSection_eq_exec, exec, applyInstr]
  exact has_section_exec (ens d s) (writesOf s items) s (has_section_ens_self d s)

/-- Every section named by the overrides is present after the merge. -/
theorem has_section_merge_overrides (b o : ConfigDocument) (s : String)
    (h : has_section o s = true) : has_section (merge b o) s = true := by
  induction o generalizing b with
  | nil => simp [has_section, lookupSec] at h
  | cons c rest ih =>
    obtain ⟨s0, items⟩ := c
    have hm : merge b ((s0, items) :: rest) = merge (mergeSection b s0 items) rest := rfl
    rw [hm]
    by_cases hs : s0 = s
    · subst hs
      exact has_section_merge_pres (mergeSection b s0 items) rest s0
        (has_section_mergeSection_self b s0 items)
    · have h' : has_section rest s = true := by
        simp [has_section, lookupSec, hs] at h
        simp [has_section, h]
      exact ih (mergeSection b s0 items) h'

/-- Members of writesOf are writes of the given section with a pair of
the items. -/
theorem mem_writesOf (s : String) (items : ConfigSection) (i : Instr)
    (h : i ∈ writesOf s items) : ∃ kv ∈ items, i = Instr.write s kv.1 kv.2 := by
  rw [writesOf] at h
  obtain ⟨kv, hkv, hi⟩ := List.mem_map.mp h
  exact ⟨kv, hkv, hi.symm⟩

/-- No step of the flattened merge of a document avoiding section s
touches a pair under s. -/
theorem flattenDoc_not_touches (o : ConfigDocument) (s k : String)
    (h : ∀ p ∈ o, p.1 ≠ s) : ∀ i ∈ flattenDoc o, ¬ Touches i s k := by
  induction o with
  | nil => intro i hi; simp [flattenDoc] at hi
  | cons c rest ih =>
    obtain ⟨s0, items⟩ := c
    intro i hi
    rw [flattenDoc, List.cons_append] at hi
    rcases List.mem_cons.mp hi with heq | hmem
    · subst heq; simp [Touches]
    · rcases List.mem_append.mp hmem with hw | hr
      · obtain ⟨kv, _, hikv⟩ := mem_writesOf s0 items i hw
        subst hikv
        rw [Touches]
        intro hT
        exact h (s0, items) (List.mem_cons_self _ _) hT.1
      · exact ih (fun p hp => h p (List.mem_cons_of_mem _ hp)) i hr

/-- Merging a document whose sections all avoid s does not change the
values under s. -/
theorem lookupIn_merge_untouched_sec (d o : ConfigDocument) (s k : String)
    (h : ∀ p ∈ o, p.1 ≠ s) : lookupIn (merge d o) s k = lookupIn d s k := by
  rw [merge_eq_exec]
  exact lookupIn_exec_untouched d (flattenDoc o) s k (flattenDoc_not_touches o s k h)

/-- Executing the writes of one section with nodup keys sets the looked-up
key to the value the section gives it. -/
theorem lookupIn_exec_writesOf (items : ConfigSection) (d : ConfigDocument) (s k v : String)
    (hsec : has_section d s = true) (hnd : (items.map Prod.fst).Nodup)
    (hl : lookupKey items k = some v) :
    lookupIn (exec d (writesOf s items)) s k = some v := by
  induction items generalizing d with
  | nil => simp [lookupKey] at hl
  | cons kv rest ih =>
    obtain ⟨k0, v0⟩ := kv
    have h1 : writesOf s ((k0, v0) :: rest) = Instr.write s k0 v0 :: writesOf s rest := rfl
    rw [h1, exec, applyInstr]
    by_cases hk : k0 = k
    · subst hk
      simp [lookupKey] at hl
      subst hl
      rw [lookupIn_exec_untouched]
      · exact lookupIn_writeIn_self d s k0 v0 hsec
      · intro i hi hT
        obtain ⟨kv', hkv', hikv⟩ := mem_writesOf s rest i hi
        subst hikv
        rw [Touches] at hT
        rw [List.map_cons, List.nodup_cons] at hnd
        have hmem : kv'.1 ∈ rest.map Prod.fst := List.mem_map_of_mem Prod.fst hkv'
        rw [hT.2] at hmem
        exact hnd.1 hmem
    · have hl' : lookupKey rest k = some v := by simpa [lookupKey, hk] using hl
      rw [List.map_cons, List.nodup_cons] at hnd
      refine ih (writeIn d s k0 v0) ?_ hnd.2 hl'
      rw [has_section_writeIn]
      exact hsec

/-- After the writes of one section, a key of the section is present. -/
theorem hasKeyIn_exec_writesOf (items : ConfigSection) (d : ConfigDocument) (s k : String)
    (hsec : has_section d s = true) (hl : (lookupKey items k).isSome = true) :
    hasKeyIn (exec d (writesOf s items)) s k = true := by
  induction items generalizing d with
  | nil => simp [lookupKey] at hl
  | cons kv rest ih =>
    obtain ⟨k0, v0⟩ := kv
    have h1 : writesOf s ((k0, v0) :: rest) = Instr.write s k0 v0 :: writesOf s rest := rfl
    rw [h1, exec, applyInstr]
    by_cases hk : k0 = k
    · subst hk
      exact hasKeyIn_exec (writeIn d s k0 v0) (writesOf s rest) s k0
        (hasKeyIn_writeIn_self d s k0 v0 hsec)
    · have hl' : (lookupKey rest k).isSome = true := by simpa [lookupKey, hk] using hl
      refine ih (writeIn d s k0 v0) ?_ hl'
      rw [has_section_writeIn]
      exact hsec

/-- Every key named by the overrides is present after the merge. -/
theorem hasKeyIn_merge_overrides (b o : ConfigDocument) (s k : String)
    (h : hasKeyIn o s k = true) : hasKeyIn (merge b o) s k = true := by
  induction o generalizing b with
  | nil => simp [hasKeyIn, lookupIn, lookupSec] at h
  | cons c rest ih =>
    obtain ⟨s0, items⟩ := c
    have hm : merge b ((s0, items) :: rest) = merge (mergeSection b s0 items) rest := rfl
    rw [hm]
    by_cases hs : s0 = s
    · subst hs
      have hl : (lookupKey items k).isSome = true := by
        simpa [hasKeyIn, lookupIn, lookupSec] using h
      refine hasKeyIn_merge_pres (mergeSection b s0 items) rest s0 k ?_
      rw [mergeSection_eq_exec, exec, applyInstr]
      exact hasKeyIn_exec_writesOf items (ens b s0) s0 k (has_section_ens_self b s0) hl
    · have h' : hasKeyIn rest s k = true := by
        simpa [hasKeyIn, lookupIn, lookupSec, hs] using h
      exact ih (mergeSection b s0 items) h'

/-- With nodup sections and keys, the merged value of an overridden key is
the overrides value. -/
theorem lookupIn_merge_overrides (b o : ConfigDocument) (s k v : String)
    (hnd1 : (o.map Prod.fst).Nodup) (hnd2 : ∀ p ∈ o, (p.2.map Prod.fst).Nodup)
    (h : lookupIn o s k = some v) : lookupIn (merge b o) s k = some v := by
  induction o generalizing b with
  | nil => simp [lookupIn, lookupSec] at h
  | cons c rest ih =>
    obtain ⟨s0, items⟩ := c
    have hm : merge b ((s0, items) :: rest) = merge (mergeSection b s0 items) rest := rfl
    rw [hm]
    rw [List.map_cons, List.nodup_cons] at hnd1
    by_cases hs : s0 = s
    · subst hs
      have hl : lookupKey items k = some v := by
        simpa [lookupIn, lookupSec] using h
      have hns : ∀ p ∈ rest, p.1 ≠ s0 := by
        intro p hp hpe
        have hmem : p.1 ∈ rest.map Prod.fst := List.mem_map_of_mem Prod.fst hp
        rw [hpe] at hmem
        exact hnd1.1 hmem
      rw [lookupIn_merge_untouched_sec (mergeSection b s0 items) rest s0 k hns]
      rw [mergeSection_eq_exec, exec, applyInstr]
      exact lookupIn_exec_writesOf items (ens b s0) s0 k v (has_section_ens_self b s0)
        (hnd2 (s0, items) (List.mem_cons_self _ _)) hl
    · have h' : lookupIn rest s k = some v := by
        simpa [lookupIn, lookupSec, hs] using h
      exact ih (mergeSection b s0 items) hnd1.2
        (fun p hp => hnd2 p (List.mem_cons_of_mem _ hp)) h'

/-- Claim C5: merge never drops a section or key present in either input:
every section and key of base and of overrides appears in the result, and
for well-formed (nodup) overrides the overrides value wins whenever the
overrides define the key. -/
theorem c5_merge_additive_union (base overrides : ConfigDocument) (s k : String) :
    ((has_section base s = true ∨ has_section overrides s = true) →
       has_section (merge base overrides) s = true) ∧
    ((hasKeyIn base s k = true ∨ hasKeyIn overrides s k = true) →
       hasKeyIn (merge base overrides) s k = true) ∧
    ((overrides.map Prod.fst).Nodup →
       (∀ p ∈ overrides, (p.2.map Prod.fst).Nodup) →
       ∀ v, lookupIn overrides s k = some v →
         lookupIn (merge base overrides) s k = some v) := by
  refine ⟨?_, ?_, ?_⟩
  · intro h
    rcases h with h | h
    · exact has_section_merge_pres base overrides s h
    · exact has_section_merge_overrides base overrides s h
  · intro h
    rcases h with h | h
    · exact hasKeyIn_merge_pres base overrides s k h
    · exact hasKeyIn_merge_overrides base overrides s k h
  · intro h1 h2 v hv
    exact lookupIn_merge_overrides base overrides s k v h1 h2 hv

/-- Witness for C5 at a concrete pair of documents: the overrides value
wins, a base-only key survives, an overrides-only section survives. -/
theorem c5_merge_additive_union_witness :
    lookupIn (merge [("llm", [("model", "x"), ("temp", "1")])]
        [("llm", [("model", "y")]), ("extra", [("old", "z")])]) "llm" "model" = some "y" ∧
    hasKeyIn (merge [("llm", [("model", "x"), ("temp", "1")])]
        [("llm", [("model", "y")]), ("extra", [("old", "z")])]) "llm" "temp" = true ∧
    has_section (merge [("llm", [("model", "x"), ("temp", "1")])]
        [("llm", [("model", "y")]), ("extra", [("old", "z")])]) "extra" = true := by
  refine ⟨?_, ?_, ?_⟩
  · exact (c5_merge_additive_union [("llm", [("model", "x"), ("temp", "1")])]
      [("llm", [("model", "y")]), ("extra", [("old", "z")])] "llm" "model").2.2
      (by decide) (by decide) "y" (by decide)
  · exact (c5_merge_additive_union [("llm", [("model", "x"), ("temp", "1")])]
      [("llm", [("model", "y")]), ("extra", [("old", "z")])] "llm" "temp").2.1
      (Or.inl (by decide))
  · exact (c5_merge_additive_union [("llm", [("model", "x"), ("temp", "1")])]
      [("llm", [("model", "y")]), ("extra", [("old", "z")])] "extra" "old").1
      (Or.inr (by decide))

/-- The version constant at the top of autocrew.py. -/
def AUTOCREW_VERSION : String := "2.1.4"

/-- Numeric value of a digit string. -/
def digitsVal (cs : List Char) : Nat :=
  cs.foldl (fun a c => a * 10 + (c.toNat - 48)) 0

/-- Split a character list on the dots, keeping empty components. -/
def splitDotsAux : List Char → List Char → List (List Char)
  | acc, [] => [acc.reverse]
  | acc, c :: rest =>
      if c = '.' then acc.reverse :: splitDotsAux [] rest else splitDotsAux (c :: acc) rest

/-- packaging.version parsing restricted to plain dotted numeric releases
(the shape of the GitHub tags the script compares, for example 2.1.4).
Any other string is unparseable (none); the script runs under
packaging < 22, whose parse wraps such strings as LegacyVersion values
that order strictly below every valid release instead of raising. -/
def parseVersionL (cs : List Char) : Option (List Nat) :=
  let parts := splitDotsAux [] cs
  if parts.all (fun p => !p.isEmpty && p.all Char.isDigit) then some (parts.map digitsVal)
  else none

/-- parseVersionL on the characters of a string. -/
def parseVersion (s : String) : Option (List Nat) :=
  parseVersionL s.data

/-- Strict release-tuple comparison with zero padding on the right, as in
PEP 440: an exhausted left tuple (all-zero padding) is never greater. -/
def verGtL : List Nat → List Nat → Bool
  | [], _ => false
  | a :: as, [] => if 0 < a then true else verGtL as []
  | a :: as, b :: bs => if b < a then true else if a = b then verGtL as bs else false

/-- version.parse(a) > version.parse(b) as evaluated by the script: a
LegacyVersion (unparseable string) orders below every valid release. -/
def pyVersionGt (a b : String) : Bool :=
  match parseVersion a, parseVersion b with
  | some x, some y => verGtL x y
  | none, _ => false
  | some _, none => true

/-- Result of the version comparison of the spec (VersionOracle.compare). -/
inductive VerCmp
  | newer
  | same
  | older
deriving DecidableEq

/-- VersionOracle.compare of the spec, derived from the ordering the code
uses: remote strictly above local is newer, local strictly above remote is
older, anything else is the same. -/
def compareVer (loc rem : String) : VerCmp :=
  if pyVersionGt rem loc then .newer
  else if pyVersionGt loc rem then .older
  else .same

/-- Outcome of the GET to the releases endpoint, as observed by
check_latest_version: requests.get can raise (connection error),
raise_for_status can raise (HTTP error status), response.json can raise
(malformed body), the tag_name access can raise KeyError, or a tag string
comes back. -/
inductive NetOutcome
  | connError (msg : String)
  | httpError (msg : String)
  | badJson (msg : String)
  | noTagField (msg : String)
  | ok (tag : String)
deriving DecidableEq

/-- The try-block of check_latest_version (lines 131-140): each failure
mode raises (error of the model), otherwise one of the two messages is
returned. -/
def bodyCheck (net : NetOutcome) : Except String String :=
  match net with
  | .connError m => .error m
  | .httpError m => .error m
  | .badJson m => .error m
  | .noTagField m => .error m
  | .ok tag =>
      if pyVersionGt tag AUTOCREW_VERSION then
        .ok ("An updated version of AutoCrew is available: " ++ tag)
      else
        .ok "You are running the latest version of AutoCrew."

/-- check_latest_version (lines 130-142): the except-clause converts any
raised exception into an informational message string. -/
def check_latest_version (net : NetOutcome) : String :=
  match bodyCheck net with
  | .ok m => m
  | .error e => "Error checking for the latest version: " ++ e

/-- A list with a member falsifying the predicate is not all-true. -/
theorem all_eq_false_of_mem {α : Type} (l : List α) (p : α → Bool) (a : α)
    (ha : a ∈ l) (hp : p a = false) : l.all p = false := by
  cases h : l.all p
  · rfl
  · rw [List.all_eq_true] at h
    rw [h a ha] at hp
    exact absurd hp (by simp)

/-- A non-digit accumulated character poisons the digit check of every
split result. -/
theorem splitDotsAux_all_false (rest acc : List Char) (a : Char)
    (ha : a ∈ acc) (hd : a.isDigit = false) :
    (splitDotsAux acc rest).all (fun p => !p.isEmpty && p.all Char.isDigit) = false := by
  induction rest generalizing acc with
  | nil =>
    rw [splitDotsAux]
    have h1 : acc.reverse.all Char.isDigit = false :=
      all_eq_false_of_mem acc.reverse Char.isDigit a (List.mem_reverse.mpr ha) hd
    simp [h1]
  | cons c rs ih =>
    rw [splitDotsAux]
    by_cases hc : c = '.'
    · have h1 : acc.reverse.all Char.isDigit = false :=
        all_eq_false_of_mem acc.reverse Char.isDigit a (List.mem_reverse.mpr ha) hd
      simp [hc, h1]
    · simp only [hc, if_false]
      exact ih (c :: acc) (List.mem_cons_of_mem c ha)

/-- A character list headed by a non-digit character never parses as a
release version. -/
theorem parseVersionL_head_nonDigit (c : Char) (rest : List Char)
    (h : c.isDigit = false) : parseVersionL (c :: rest) = none := by
  rw [parseVersionL]
  by_cases hc : c = '.'
  · subst hc
    rw [splitDotsAux]
    simp
  · have h1 : splitDotsAux [] (c :: rest) = splitDotsAux [c] rest := by
      rw [splitDotsAux]
      simp [hc]
    rw [h1, splitDotsAux_all_false rest [c] c (List.mem_singleton.mpr rfl) h]
    simp

/-- A string headed by a non-digit character never parses. -/
theorem parseVersion_head (s : String) (c : Char) (rest : List Char)
    (hdata : s.data = c :: rest) (h : c.isDigit = false) : parseVersion s = none := by
  rw [parseVersion, hdata]
  exact parseVersionL_head_nonDigit c rest h

/-- An unparseable left operand is never greater. -/
theorem pyVersionGt_false_of_parse_none (a b : String) (h : parseVersion a = none) :
    pyVersionGt a b = false := by
  rw [pyVersionGt, h]

/-- The message returned by check_latest_version starts with a letter, so
it never parses as a version and is never taken to be newer than the
installed version: the upgrade branch of main compares this message, not
the remote tag, against AUTOCREW_VERSION. -/
theorem pyVersionGt_check_false (net : NetOutcome) :
    pyVersionGt (check_latest_version net) AUTOCREW_VERSION = false := by
  cases net with
  | connError m =>
    exact pyVersionGt_false_of_parse_none _ _
      (parseVersion_head _ 'E' ("rror checking for the latest version: " ++ m).data rfl
        (by decide))
  | httpError m =>
    exact pyVersionGt_false_of_parse_none _ _
      (parseVersion_head _ 'E' ("rror checking for the latest version: " ++ m).data rfl
        (by decide))
  | badJson m =>
    exact pyVersionGt_false_of_parse_none _ _
      (parseVersion_head _ 'E' ("rror checking for the latest version: " ++ m).data rfl
        (by decide))
  | noTagField m =>
    exact pyVersionGt_false_of_parse_none _ _
      (parseVersion_head _ 'E' ("rror checking for the latest version: " ++ m).data rfl
        (by decide))
  | ok tag =>
    rw [check_latest_version, bodyCheck]
    cases hgt : pyVersionGt tag AUTOCREW_VERSION
    · simp only [if_false, Bool.false_eq_true]
      exact pyVersionGt_false_of_parse_none _ _
        (parseVersion_head _ 'Y' ("ou are running the latest version of AutoCrew.").data rfl
          (by decide))
    · simp only [if_true]
      exact pyVersionGt_false_of_parse_none _ _
        (parseVersion_head _ 'A' ("n updated version of AutoCrew is available: " ++ tag).data rfl
          (by decide))

/-- Contents of the .backup directory: the logfile copy (written under a
versioned name) and the config copy (config_backup.ini). -/
structure BackupDir where
  logCopy : Option String
  configCopy : Option ConfigDocument
deriving DecidableEq

/-- A directory entry of the cloned tree: a regular file with its
content, or a directory with its own entries.  os.path.isfile
distinguishes the two at the top level; the copy loop of
upgrade_autocrew never descends into directories. -/
inductive EntryKind
  | file (content : String)
  | dir (entries : List (String × EntryKind))

/-- The cloned source tree in the autocrew_update side directory: its
top-level entries (each possibly a whole subtree), plus the parse of its
top-level config.ini (configparser.read of a missing file silently
yields an empty document, so configDoc is [] when the tree carries no
config.ini). -/
structure Fetched where
  entries : List (String × EntryKind)
  configDoc : ConfigDocument

/-- The fetched tree contains a regular file with the given content at
the given path (top level or nested inside directories). -/
inductive TreeHasFile : List (String × EntryKind) → List String → String → Prop
  | here (name content : String) (rest : List (String × EntryKind)) :
      TreeHasFile ((name, .file content) :: rest) [name] content
  | inDir (name : String) (sub rest : List (String × EntryKind)) (path : List String)
      (content : String) : TreeHasFile sub path content →
      TreeHasFile ((name, .dir sub) :: rest) (name :: path) content
  | later (e : String × EntryKind) (rest : List (String × EntryKind)) (path : List String)
      (content : String) : TreeHasFile rest path content →
      TreeHasFile (e :: rest) path content

/-- The installation directory: config.ini (parsed), autocrew.log, the
remaining top-level files by name, and the .backup subdirectory. -/
structure FS where
  config : Option ConfigDocument
  log : Option String
  files : List (String × String)
  backup : Option BackupDir
deriving DecidableEq

/-- The backup phase of upgrade_autocrew (lines 146-159, the snapshot of
the spec): create .backup if absent, copy the logfile only when it
exists, then copy config.ini unconditionally - shutil.copyfile raises
FileNotFoundError (false) when config.ini is missing. -/
def snapshot (fs : FS) : Bool × FS :=
  let b0 : BackupDir :=
    match fs.backup with
    | some b => b
    | none => ⟨none, none⟩
  let b1 : BackupDir :=
    match fs.log with
    | some l => { b0 with logCopy := some l }
    | none => b0
  match fs.config with
  | none => (false, { fs with backup := some b1 })
  | some c => (true, { fs with backup := some { b1 with configCopy := some c } })

/-- shutil.copyfile(source_path, filename) into the installation
directory: a file named autocrew.log lands in the log slot, anything else
in the plain file map. -/
def writeInstalled (fs : FS) (name content : String) : FS :=
  if name = "autocrew.log" then { fs with log := some content }
  else { fs with files := setKey fs.files name content }

/-- Read one installation file by name. -/
def readInstalled (fs : FS) (name : String) : Option String :=
  if name = "autocrew.log" then fs.log else lookupKey fs.files name

/-- One iteration of the copy loop of upgrade_autocrew (lines 168-172):
only regular files are copied and config.ini is skipped. -/
def copyStep (fs : FS) (e : String × EntryKind) : FS :=
  match e.2 with
  | .file content => if e.1 = "config.ini" then fs else writeInstalled fs e.1 content
  | .dir _ => fs

/-- The copy loop of upgrade_autocrew over the fetched listing. -/
def copyLoop (fs : FS) (entries : List (String × EntryKind)) : FS :=
  entries.foldl copyStep fs

/-- Outcome of one run of upgrade_autocrew: success (sys.exit(0)), or the
uncaught exception raised at the unguarded config copy, or the uncaught
FileNotFoundError of os.listdir on the missing clone directory. -/
inductive UpgradeOutcome
  | success
  | configBackupError
  | fetchError
deriving DecidableEq

/-- upgrade_autocrew (lines 145-192).  The clone argument is the result
of the unchecked git-clone subprocess: none when the clone failed and
left no directory (git removes a failed fresh clone), some tree when it
produced one.  The function returns the outcome together with the state
of the installation when it stops. -/
def upgrade_autocrew (fs : FS) (clone : Option Fetched) : UpgradeOutcome × FS :=
  match snapshot fs with
  | (false, fs1) => (.configBackupError, fs1)
  | (true, fs1) =>
    match clone with
    | none => (.fetchError, fs1)
    | some fetched =>
      let fs2 := copyLoop fs1 fetched.entries
      let backupDoc : ConfigDocument :=
        match fs1.backup with
        | some b =>
          match b.configCopy with
          | some c => c
          | none => []
        | none => []
      let merged := merge fetched.configDoc backupDoc
      (.success, { fs2 with config := some merged })

/-- A fresh write is read back. -/
theorem readInstalled_writeInstalled_self (fs : FS) (name content : String) :
    readInstalled (writeInstalled fs name content) name = some content := by
  by_cases h : name = "autocrew.log"
  · simp [readInstalled, writeInstalled, h]
  · simp [readInstalled, writeInstalled, h, lookupKey_setKey_self]

/-- A write of another name changes nothing visible under this name. -/
theorem readInstalled_writeInstalled_ne (fs : FS) (name other content : String)
    (h : other ≠ name) :
    readInstalled (writeInstalled fs other content) name = readInstalled fs name := by
  by_cases ho : other = "autocrew.log"
  · subst ho
    simp [readInstalled, writeInstalled, Ne.symm h]
  · by_cases hn : name = "autocrew.log"
    · simp [readInstalled, writeInstalled, ho, hn]
    · simp [readInstalled, writeInstalled, ho, hn,
        lookupKey_setKey_ne fs.files other name content (Ne.symm h)]

/-- The copy loop does not touch names outside the listing. -/
theorem readInstalled_copyLoop_notmem (entries : List (String × EntryKind)) (fs : FS)
    (name : String) (h : name ∉ entries.map Prod.fst) :
    readInstalled (copyLoop fs entries) name = readInstalled fs name := by
  induction entries generalizing fs with
  | nil => rfl
  | cons e rest ih =>
    rw [List.map_cons, List.mem_cons] at h
    push_neg at h
    have step : readInstalled (copyStep fs e) name = readInstalled fs name := by
      obtain ⟨ename, kind⟩ := e
      cases kind with
      | file content =>
        by_cases hc : ename = "config.ini"
        · simp [copyStep, hc]
        · simp [copyStep, hc]
          exact readInstalled_writeInstalled_ne fs name ename content (fun hh => h.1 hh.symm)
      | dir sub => rfl
    rw [copyLoop, List.foldl_cons, ← copyLoop, ih (copyStep fs e) h.2, step]

/-- After the copy loop with nodup names, every non-config regular file
of the listing is installed with the fetched content. -/
theorem readInstalled_copyLoop_mem (entries : List (String × EntryKind)) (fs : FS)
    (name content : String) (hnd : (entries.map Prod.fst).Nodup)
    (hmem : (name, EntryKind.file content) ∈ entries) (hcfg : name ≠ "config.ini") :
    readInstalled (copyLoop fs entries) name = some content := by
  induction entries generalizing fs with
  | nil => simp at hmem
  | cons e rest ih =>
    rw [List.map_cons, List.nodup_cons] at hnd
    rw [copyLoop, List.foldl_cons, ← copyLoop]
    rcases List.mem_cons.mp hmem with heq | hmem'
    · have hstep : readInstalled (copyStep fs e) name = some content := by
        rw [← heq, copyStep]
        simp [hcfg]
        exact readInstalled_writeInstalled_self fs name content
      have hnin : name ∉ rest.map Prod.fst := by
        rw [← heq] at hnd
        exact hnd.1
      rw [readInstalled_copyLoop_notmem rest (copyStep fs e) name hnin, hstep]
    · exact ih (copyStep fs e) hnd.2 hmem'

/-- The copy loop never touches config.ini. -/
theorem copyLoop_config (entries : List (String × EntryKind)) (fs : FS) :
    (copyLoop fs entries).config = fs.config := by
  induction entries generalizing fs with
  | nil => rfl
  | cons e rest ih =>
    rw [copyLoop, List.foldl_cons, ← copyLoop, ih]
    obtain ⟨ename, kind⟩ := e
    cases kind with
    | file content =>
      by_cases hc : ename = "config.ini"
      · simp [copyStep, hc]
      · by_cases hl : ename = "autocrew.log"
        · simp [copyStep, hc, writeInstalled, hl]
        · simp [copyStep, hc, writeInstalled, hl]
    | dir sub => rfl

/-- Claim C3: when the Fetching step fails (the clone produced no
directory, so os.listdir raises), upgrade_autocrew ends in the failed
state and the live installation is untouched: config.ini, the other
installed files and the log keep their pre-invocation content. -/
theorem c3_fetch_failure_leaves_install (fs : FS) (c : ConfigDocument)
    (h : fs.config = some c) :
    (upgrade_autocrew fs none).1 = .fetchError ∧
    (upgrade_autocrew fs none).2.config = some c ∧
    (upgrade_autocrew fs none).2.files = fs.files ∧
    (upgrade_autocrew fs none).2.log = fs.log := by
  simp [upgrade_autocrew, snapshot, h]

/-- Witness for C3 at a concrete installation. -/
theorem c3_fetch_failure_leaves_install_witness :
    (upgrade_autocrew ⟨some [("s", [("k", "v")])], some "old log", [("core.py", "c")], none⟩
        none).1 = UpgradeOutcome.fetchError ∧
    (upgrade_autocrew ⟨some [("s", [("k", "v")])], some "old log", [("core.py", "c")], none⟩
        none).2.config = some [("s", [("k", "v")])] := by
  have h := c3_fetch_failure_leaves_install
    ⟨some [("s", [("k", "v")])], some "old log", [("core.py", "c")], none⟩
    [("s", [("k", "v")])] rfl
  exact ⟨h.1, h.2.1⟩

/-- Claim C4 counterexample: the copy loop does not visit every regular
file of the fetched tree.  From a tree whose only regular file sits
inside a subdirectory, a successful upgrade installs nothing at all -
the installation has no files and no log afterwards - so the nested
regular file has no corresponding installed file. -/
theorem c4_replacing_counterexample :
    TreeHasFile [("sub", EntryKind.dir [("inner.py", EntryKind.file "nested")])]
      ["sub", "inner.py"] "nested" ∧
    (upgrade_autocrew ⟨some [], none, [], none⟩
        (some ⟨[("sub", EntryKind.dir [("inner.py", EntryKind.file "nested")])], []⟩)).1 =
      UpgradeOutcome.success ∧
    (upgrade_autocrew ⟨some [], none, [], none⟩
        (some ⟨[("sub", EntryKind.dir [("inner.py", EntryKind.file "nested")])], []⟩)).2.files =
      [] ∧
    (upgrade_autocrew ⟨some [], none, [], none⟩
        (some ⟨[("sub", EntryKind.dir [("inner.py", EntryKind.file "nested")])], []⟩)).2.log =
      none :=
  ⟨.inDir "sub" _ _ _ _ (.here "inner.py" "nested" []), rfl, rfl, rfl⟩

/-- Claim C4 as amended: during the Replacing step of a successful
upgrade, every top-level regular file of the fetched tree except
config.ini overwrites or creates the corresponding installed file
(os.listdir does not recurse, so regular files inside subdirectories are
not copied), and config.ini is overwritten with the merged document
(fetched defaults updated with the backed-up user settings), never with
the fetched raw default. -/
theorem c4_replacing_step (fs : FS) (c : ConfigDocument) (fetched : Fetched)
    (h : fs.config = some c)
    (hnd : (fetched.entries.map Prod.fst).Nodup) :
    (upgrade_autocrew fs (some fetched)).1 = .success ∧
    (∀ name content, (name, EntryKind.file content) ∈ fetched.entries →
      name ≠ "config.ini" →
      readInstalled (upgrade_autocrew fs (some fetched)).2 name = some content) ∧
    (upgrade_autocrew fs (some fetched)).2.config = some (merge fetched.configDoc c) := by
  have hrun : upgrade_autocrew fs (some fetched) =
      (.success,
        { copyLoop { fs with backup := some ⟨(match fs.log with
            | some l => some l
            | none => match fs.backup with
              | some b => b.logCopy
              | none => none), some c⟩ } fetched.entries with
          config := some (merge fetched.configDoc c) }) := by
    rw [upgrade_autocrew, snapshot]
    cases hb : fs.backup <;> cases hl : fs.log <;> simp [h]
  refine ⟨by rw [hrun], ?_, by rw [hrun]⟩
  intro name content hmem hcfg
  rw [hrun]
  have hread : ∀ fs' : FS, readInstalled { fs' with config := some (merge fetched.configDoc c) }
      name = readInstalled fs' name := by
    intro fs'
    by_cases hn : name = "autocrew.log" <;> simp [readInstalled, hn]
  rw [hread]
  exact readInstalled_copyLoop_mem fetched.entries _ name content hnd hmem hcfg

/-- Witness for the amended C4 at a concrete installation and fetched
tree (with a directory entry among the listing). -/
theorem c4_replacing_step_witness :
    readInstalled (upgrade_autocrew
        ⟨some [("llm", [("model", "user")])], some "log", [("core.py", "old")], none⟩
        (some ⟨[("core.py", .file "new"), ("config.ini", .file "raw"), ("sub", .dir [])],
          [("llm", [("model", "default"), ("temp", "1")])]⟩)).2 "core.py" = some "new" ∧
    (upgrade_autocrew
        ⟨some [("llm", [("model", "user")])], some "log", [("core.py", "old")], none⟩
        (some ⟨[("core.py", .file "new"), ("config.ini", .file "raw"), ("sub", .dir [])],
          [("llm", [("model", "default"), ("temp", "1")])]⟩)).2.config =
      some [("llm", [("model", "user"), ("temp", "1")])] := by
  have h := c4_replacing_step
    ⟨some [("llm", [("model", "user")])], some "log", [("core.py", "old")], none⟩
    [("llm", [("model", "user")])]
    ⟨[("core.py", .file "new"), ("config.ini", .file "raw"), ("sub", .dir [])],
      [("llm", [("model", "default"), ("temp", "1")])]⟩
    rfl (by decide)
  refine ⟨h.2.1 "core.py" "new" (List.mem_cons_self _ _) (by decide), ?_⟩
  rw [h.2.2]
  rfl

/-- Claim C7 counterexample: the backup phase does not silently skip every
missing source.  With a missing config.ini (and an existing log), the
snapshot does not complete successfully: the unguarded
shutil.copyfile of config.ini raises. -/
theorem c7_snapshot_counterexample :
    (snapshot ⟨none, some "old log", [], none⟩).1 = false := by
  rfl

/-- Claim C7 as amended: only the log file is existence-guarded.  When
config.ini exists and the backup directory is fresh, the snapshot
completes, copies exactly the existing sources among the log file and
config.ini (the log copy is present exactly when the log exists), and
deletes no source. -/
theorem c7_snapshot_skips_missing_log (fs : FS) (c : ConfigDocument)
    (hc : fs.config = some c) (hb : fs.backup = none) :
    (snapshot fs).1 = true ∧
    (snapshot fs).2.backup = some ⟨fs.log, some c⟩ ∧
    (snapshot fs).2.config = fs.config ∧
    (snapshot fs).2.log = fs.log ∧
    (snapshot fs).2.files = fs.files := by
  cases hl : fs.log <;> simp [snapshot, hc, hb, hl]

/-- Witness for the amended C7: the missing log is silently skipped while
config.ini is copied. -/
theorem c7_snapshot_skips_missing_log_witness :
    (snapshot ⟨some [("s", [("k", "v")])], none, [], none⟩).1 = true ∧
    (snapshot ⟨some [("s", [("k", "v")])], none, [], none⟩).2.backup =
      some ⟨none, some [("s", [("k", "v")])]⟩ := by
  have h := c7_snapshot_skips_missing_log ⟨some [("s", [("k", "v")])], none, [], none⟩
    [("s", [("k", "v")])] rfl rfl
  exact ⟨h.1, h.2.1⟩

/-- Python int(value) restricted to an optional sign followed by digits
(the whitespace and underscore tolerance of int() plays no role in the
claims and is not modelled). -/
def parsePyInt (s : String) : Option Int :=
  match s.data with
  | [] => none
  | '-' :: rest =>
      if !rest.isEmpty && rest.all Char.isDigit then some (-(digitsVal rest : Int)) else none
  | '+' :: rest =>
      if !rest.isEmpty && rest.all Char.isDigit then some ((digitsVal rest : Int)) else none
  | cs => if cs.all Char.isDigit then some ((digitsVal cs : Int)) else none

/-- Failure modes of positive_int: ArgumentTypeError raised for a parsed
non-positive int, or the interactive loop never receiving an integer (the
real process then loops forever; blocked marks that the call does not
return). -/
inductive PIErr
  | typeErr
  | blocked
deriving DecidableEq

/-- positive_int (lines 116-128): int(value) parsing raises
ValueError for a non-integer, which is caught and answered by an
interactive loop that accepts the first integer typed, with no
positivity check; only a parsed integer at most zero raises
ArgumentTypeError. -/
def positive_int (value : String) (stdin : List String) : Except PIErr Int :=
  match parsePyInt value with
  | some i => if i ≤ 0 then .error .typeErr else .ok i
  | none =>
    match stdin.findSome? parsePyInt with
    | some j => .ok j
    | none => .error .blocked

/-- A root-logger handler as installed at lines 67-77. -/
inductive Handler
  | fileHandler
  | consoleHandler (level : Nat)
deriving DecidableEq

/-- Console logging level chosen at lines 50-57: DEBUG (10) when verbose,
else the configured level when present, else INFO (20). -/
def consoleLevel (verbose : Bool) (configLevel : Option Nat) : Nat :=
  if verbose then 10 else
    match configLevel with
    | some l => l
    | none => 20

/-- Logging initialization (initialize_logging, lines 44-77): any
handlers already attached to the root logger are cleared, a FileHandler
on autocrew.log is opened with mode w - truncating the file on the spot -
and a console handler is attached. -/
def init_logging (verbose : Bool) (configLevel : Option Nat) (prior : List Handler)
    (fs : FS) : List Handler × FS :=
  ([.fileHandler, .consoleHandler (consoleLevel verbose configLevel)],
    { fs with log := some "" })

/-- The parsed argument namespace of main (lines 198-206). -/
structure Args where
  verbose : Bool
  upgrade : Bool
  help : Bool
  rank : Bool
  auto_run : Bool
  multiple : Option Int
  overall_goal : Option String
deriving DecidableEq

/-- argparse defaults: store_true flags start false, the rest None. -/
def defaultArgs : Args := ⟨false, false, false, false, false, none, none⟩

/-- Ways parsing can leave main before logging starts: an argparse usage
error (exit code 2), or positive_int blocking in its interactive loop. -/
inductive CliError
  | usageExit (code : Nat)
  | blocked
deriving DecidableEq

/-- A token argparse would treat as an optional (leading dash and more
than the bare dash). -/
def isOptionLike (t : String) : Bool :=
  match t.data with
  | '-' :: _ :: _ => true
  | _ => false

/-- Consume one token that is not the -m flag: recognized flags set their
slot, an unrecognized option goes to the extras, the first plain token
fills the positional overall_goal and later plain tokens are extras.
This models parse_known_args for the flag set of main; abbreviated long
options and fused short flags are not modelled. -/
def stepToken (t : String) (args : Args) (unknown : List String) : Args × List String :=
  if t = "-v" ∨ t = "--verbose" then ({ args with verbose := true }, unknown)
  else if t = "-u" ∨ t = "--upgrade" then ({ args with upgrade := true }, unknown)
  else if t = "-h" ∨ t = "-?" ∨ t = "--help" then ({ args with help := true }, unknown)
  else if t = "-r" ∨ t = "--rank" then ({ args with rank := true }, unknown)
  else if t = "-a" ∨ t = "--auto_run" then ({ args with auto_run := true }, unknown)
  else if isOptionLike t then (args, t :: unknown)
  else
    match args.overall_goal with
    | none => ({ args with overall_goal := some t }, unknown)
    | some _ => (args, t :: unknown)

/-- The -m flag, whose value goes through positive_int. -/
def isMultipleFlag (t : String) : Bool := t = "-m" || t = "--multiple"

/-- parser.parse_known_args (line 206): recognized arguments build the
namespace, unrecognized ones are returned as extras; the -m value is
converted by positive_int, whose ArgumentTypeError argparse turns into a
usage exit with code 2. -/
def parseKnownArgs : List String → List String → Args → List String →
    Except CliError (Args × List String)
  | [], _, args, unknown => .ok (args, unknown.reverse)
  | [t], _, args, unknown =>
    if isMultipleFlag t then .error (.usageExit 2)
    else
      match stepToken t args unknown with
      | (args2, unknown2) => .ok (args2, unknown2.reverse)
  | t :: v :: rest2, stdin, args, unknown =>
    if isMultipleFlag t then
      match positive_int v stdin with
      | .error .typeErr => .error (.usageExit 2)
      | .error .blocked => .error .blocked
      | .ok n => parseKnownArgs rest2 stdin { args with multiple := some n } unknown
    else
      match stepToken t args unknown with
      | (args2, unknown2) => parseKnownArgs (v :: rest2) stdin args2 unknown2

/-- Where one run of main ends up. -/
inductive Dispatch
  | usageConflict
  | noNewVersion
  | upgraded (o : UpgradeOutcome)
  | helpShown
  | workflow
deriving DecidableEq

/-- Exit code of the modelled dispatch outcomes: the usage conflict exits
1, the no-new-version and help paths exit 0, a successful upgrade exits 0
and a failed one raises out of main, ending the process with code 1; the
workflow path continues into the external AutoCrew collaborator and is
not modelled. -/
def dispatchExit : Dispatch → Option Nat
  | .usageConflict => some 1
  | .noNewVersion => some 0
  | .upgraded .success => some 0
  | .upgraded _ => some 1
  | .helpShown => some 0
  | .workflow => none

/-- Result of one modelled run of main. -/
structure RunResult where
  dispatch : Dispatch
  fs : FS
  startup : String
deriving DecidableEq

/-- The startup banner of main (lines 218-223), holding the version-check
message. -/
def mkStartup (vmsg : String) : String :=
  "\nAutoCrew version: " ++ AUTOCREW_VERSION ++ "\n" ++ vmsg ++ "\n\n" ++
  "Use the -? or -h command line options to display help information.\n" ++
  "Settings can be modified within \"config.ini\". Scripts are saved in the \"scripts\" subdirectory.\n" ++
  "If you experience any errors, please create an issue on Github and attach \"autocrew.log\":\n" ++
  "https://github.com/yanniedog/autocrew/issues/new\n"

/-- The log truncation performed by logging initialization. -/
def truncateLog (fs : FS) : FS := { fs with log := some "" }

/-- main (lines 197-239) up to the waypoint where control either exits or
passes to the external AutoCrew collaborator: parse arguments, initialize
logging (truncating the log), run the version check, then dispatch.  The
upgrade branch compares the version-check message string, not the remote
tag, against AUTOCREW_VERSION. -/
def mainModel (tokens stdin : List String) (net : NetOutcome) (fs0 : FS)
    (clone : Option Fetched) : Except CliError RunResult :=
  match parseKnownArgs tokens stdin defaultArgs [] with
  | .error e => .error e
  | .ok (args, unknown) =>
    let fs1 := truncateLog fs0
    let vmsg := check_latest_version net
    let startup := mkStartup vmsg
    if args.upgrade || args.help then
      if unknown.isEmpty = false then .ok ⟨.usageConflict, fs1, startup⟩
      else if args.upgrade then
        if pyVersionGt vmsg AUTOCREW_VERSION then
          let r := upgrade_autocrew fs1 clone
          .ok ⟨.upgraded r.1, r.2, startup⟩
        else .ok ⟨.noNewVersion, fs1, startup⟩
      else .ok ⟨.helpShown, fs1, startup⟩
    else .ok ⟨.workflow, fs1, startup⟩

/-- Dispatch of a finished run. -/
def runDispatch : Except CliError RunResult → Option Dispatch
  | .ok r => some r.dispatch
  | .error _ => none

/-- Exit code of a finished run, none when not modelled. -/
def runExit : Except CliError RunResult → Option Nat
  | .ok r => dispatchExit r.dispatch
  | .error (.usageExit c) => some c
  | .error .blocked => none

/-- Claim C9: positive_int raises the usage error (ArgumentTypeError)
exactly for values that parse as integers at most zero; a value that is
not an integer never raises but prompts in a loop, and the first integer
typed is accepted with no positivity check, so the accepted count can be
zero or negative. -/
theorem c9_positive_int (value : String) (stdin : List String) :
    (∀ i, parsePyInt value = some i → i ≤ 0 →
      positive_int value stdin = .error .typeErr) ∧
    (∀ i, parsePyInt value = some i → 0 < i → positive_int value stdin = .ok i) ∧
    (parsePyInt value = none → positive_int value stdin ≠ .error .typeErr) ∧
    (∀ j, parsePyInt value = none → stdin.findSome? parsePyInt = some j →
      positive_int value stdin = .ok j) := by
  refine ⟨?_, ?_, ?_, ?_⟩
  · intro i hi hle
    simp [positive_int, hi, hle]
  · intro i hi hpos
    simp [positive_int, hi, Int.not_le.mpr hpos]
  · intro h
    rw [positive_int, h]
    cases hf : stdin.findSome? parsePyInt <;> simp
  · intro j h hf
    rw [positive_int, h, hf]

/-- Witness for C9: a negative count typed at the prompt is accepted, a
non-positive flag value is a usage error. -/
theorem c9_positive_int_witness :
    positive_int "abc" ["zap", "-5"] = .ok (-5) ∧
    positive_int "0" [] = .error .typeErr := by
  refine ⟨(c9_positive_int "abc" ["zap", "-5"]).2.2.2 (-5) (by decide) (by decide), ?_⟩
  exact (c9_positive_int "0" []).1 0 (by decide) (by decide)

/-- Claim C10: every logging initialization replaces whatever handlers
were attached before - the installed pair does not depend on the prior
handler list - and opens autocrew.log in write mode, truncating it, so
the log content of previous runs is destroyed. -/
theorem c10_init_logging_truncates (verbose : Bool) (configLevel : Option Nat)
    (prior : List Handler) (fs : FS) :
    (init_logging verbose configLevel prior fs).2.log = some "" ∧
    (init_logging verbose configLevel prior fs).1 =
      [.fileHandler, .consoleHandler (consoleLevel verbose configLevel)] ∧
    (∀ prior2, init_logging verbose configLevel prior fs =
      init_logging verbose configLevel prior2 fs) ∧
    (init_logging verbose configLevel prior fs).2.config = fs.config ∧
    (init_logging verbose configLevel prior fs).2.files = fs.files := by
  exact ⟨rfl, rfl, fun prior2 => rfl, rfl, rfl⟩

/-- The upgrade dispatch of main never reaches upgrade_autocrew: the
string compared against AUTOCREW_VERSION is the check message, which
never parses as a version. -/
theorem mainModel_never_upgrades (tokens stdin : List String) (net : NetOutcome)
    (fs0 : FS) (clone : Option Fetched) (o : UpgradeOutcome) :
    runDispatch (mainModel tokens stdin net fs0 clone) ≠ some (.upgraded o) := by
  rw [mainModel]
  cases hp : parseKnownArgs tokens stdin defaultArgs [] with
  | error e => simp [runDispatch]
  | ok p =>
    obtain ⟨args, unknown⟩ := p
    simp only [pyVersionGt_check_false net, if_false, Bool.false_eq_true]
    split
    · split
      · simp [runDispatch]
      · split
        · simp [runDispatch]
        · simp [runDispatch]
    · simp [runDispatch]

/-- A concrete installation used by several witnesses. -/
def sampleFS : FS := ⟨some [("s", [("k", "v")])], some "old log", [("core.py", "c")], none⟩

/-- Claim C1: with the local version 2.1.4 and the remote tag 2.1.4, the
comparison yields Same, the upgrade invocation reports no new version and
exits 0; and the run enters the fetching path only when the comparison it
performs reports newer - which in fact never happens, since main compares
the check message rather than the tag. -/
theorem c1_upgrade_same_version :
    compareVer AUTOCREW_VERSION "2.1.4" = VerCmp.same ∧
    check_latest_version (.ok "2.1.4") =
      "You are running the latest version of AutoCrew." ∧
    (∀ fs0 clone,
      runDispatch (mainModel ["--upgrade"] [] (.ok "2.1.4") fs0 clone) =
        some .noNewVersion ∧
      runExit (mainModel ["--upgrade"] [] (.ok "2.1.4") fs0 clone) = some 0) ∧
    (∀ tokens stdin net fs0 clone o,
      runDispatch (mainModel tokens stdin net fs0 clone) ≠ some (.upgraded o)) := by
  refine ⟨rfl, rfl, fun fs0 clone => ⟨rfl, rfl⟩, ?_⟩
  intro tokens stdin net fs0 clone o
  exact mainModel_never_upgrades tokens stdin net fs0 clone o

/-- Witness for C1 at a concrete installation. -/
theorem c1_upgrade_same_version_witness :
    runExit (mainModel ["--upgrade"] [] (.ok "2.1.4") sampleFS none) = some 0 :=
  (c1_upgrade_same_version.2.2.1 sampleFS none).2

/-- Claim C2 counterexample: combining --upgrade with a recognized
argument (the positional goal) is not detected as a usage conflict - the
goal lands in the parsed namespace, the extras stay empty, and the run
exits 0 through the no-new-version path instead of exiting 1. -/
theorem c2_usage_conflict_counterexample :
    runExit (mainModel ["--upgrade", "write a poem"] [] (.ok "2.1.4") sampleFS none) =
      some 0 ∧
    runDispatch (mainModel ["--upgrade", "write a poem"] [] (.ok "2.1.4") sampleFS none) =
      some .noNewVersion := ⟨rfl, rfl⟩

/-- Claim C2 as amended: only an unrecognized argument combined with the
upgrade or help flag triggers the usage conflict, which exits with code
1; and before that exit the log file has already been truncated by
logging initialization - the only filesystem mutation of the run. -/
theorem c2_usage_conflict_amended (tokens stdin : List String) (net : NetOutcome)
    (fs0 : FS) (clone : Option Fetched) (args : Args) (unknown : List String)
    (hp : parseKnownArgs tokens stdin defaultArgs [] = .ok (args, unknown))
    (hu : (args.upgrade || args.help) = true) (hne : unknown ≠ []) :
    mainModel tokens stdin net fs0 clone =
      .ok ⟨.usageConflict, truncateLog fs0, mkStartup (check_latest_version net)⟩ ∧
    runExit (mainModel tokens stdin net fs0 clone) = some 1 ∧
    (truncateLog fs0).config = fs0.config ∧
    (truncateLog fs0).files = fs0.files ∧
    (truncateLog fs0).backup = fs0.backup ∧
    (truncateLog fs0).log = some "" := by
  have hemp : unknown.isEmpty = false := by
    cases unknown with
    | nil => exact absurd rfl hne
    | cons a l => rfl
  have h1 : mainModel tokens stdin net fs0 clone =
      .ok ⟨.usageConflict, truncateLog fs0, mkStartup (check_latest_version net)⟩ := by
    rw [mainModel, hp]
    simp [hu, hemp]
  refine ⟨h1, ?_, rfl, rfl, rfl, rfl⟩
  rw [h1]
  rfl

/-- Witness for the amended C2: --upgrade plus an unknown option exits 1
after the log truncation. -/
theorem c2_usage_conflict_amended_witness :
    runExit (mainModel ["--upgrade", "--bogus"] [] (.ok "2.1.4") sampleFS none) = some 1 :=
  (c2_usage_conflict_amended ["--upgrade", "--bogus"] [] (.ok "2.1.4") sampleFS none
    ⟨false, true, false, false, false, none, none⟩ ["--bogus"] rfl rfl
    (by decide)).2.1

/-- Claim C8: any failure inside the version check is caught at its
boundary and converted into the informational message string, and for
every parsed invocation the run still reaches its dispatch with that
message in the startup banner - the failure never aborts startup. -/
theorem c8_version_check_never_aborts (net : NetOutcome) (e : String)
    (h : bodyCheck net = .error e) :
    check_latest_version net = "Error checking for the latest version: " ++ e ∧
    (∀ tokens stdin fs0 clone args unknown,
      parseKnownArgs tokens stdin defaultArgs [] = .ok (args, unknown) →
      ∃ r : RunResult, mainModel tokens stdin net fs0 clone = .ok r ∧
        r.startup = mkStartup ("Error checking for the latest version: " ++ e)) := by
  have hc : check_latest_version net = "Error checking for the latest version: " ++ e := by
    rw [check_latest_version, h]
  refine ⟨hc, ?_⟩
  intro tokens stdin fs0 clone args unknown hp
  rw [mainModel, hp]
  simp only [hc]
  split
  · split
    · exact ⟨_, rfl, rfl⟩
    · split
      · split
        · exact ⟨_, rfl, rfl⟩
        · exact ⟨_, rfl, rfl⟩
      · exact ⟨_, rfl, rfl⟩
  · exact ⟨_, rfl, rfl⟩

/-- Witness for C8: a connection failure is downgraded to a message and a
plain invocation still reaches its dispatch. -/
theorem c8_version_check_never_aborts_witness :
    check_latest_version (.connError "boom") =
      "Error checking for the latest version: " ++ "boom" ∧
    ∃ r : RunResult, mainModel [] [] (.connError "boom") sampleFS none = .ok r ∧
      r.startup = mkStartup ("Error checking for the latest version: " ++ "boom") := by
  have h := c8_version_check_never_aborts (.connError "boom") "boom" rfl
  exact ⟨h.1, h.2 [] [] sampleFS none defaultArgs [] rfl⟩
